import Mathlib

/-!
# Verification of the beads_viewer dependency-graph analysis core

Shallow embedding of `pkg/analysis/graph.go` (graph construction, phase-1
degree/topological-order metrics, phase-2 critical path / PageRank-timeout /
cycle publication) and of the impact scorer (`ComputeImpactScoresAt`).

Conventions:
* Go `float64` arithmetic is modelled over `ℚ` (the score formulas involve
  only field operations, `min`/`max` and comparisons).
* Go maps are modelled as association lists with a canonical entry order
  (`issueEntries` reproduces the last-write-wins semantics of
  `issueMap[issue.ID] = issue`); map iteration order is never relied upon,
  statements are about membership / lookup.
* `Dependencies []*model.Dependency` is modelled as `List (Option Dependency)`;
  `none` is a nil pointer.  Functions that dereference entries without a nil
  check in Go (`GetActionableIssues`, `GetBlockers`, `GetOpenBlockers`) would
  panic on a nil entry, so the corresponding theorems assume nil-free inputs.
* The gonum calls (`simple.DirectedGraph`, `topo.Sort`, `topo.TarjanSCC`,
  `topo.DirectedCyclesIn`, `network.PageRank`) are external library code.
  The graph itself is embedded directly (a simple directed graph is just its
  deduplicated edge set); `topo.Sort` is realised by a Kahn-style sort proved
  sound and complete against an independent walk-based cycle definition;
  Tarjan/Johnson outputs and algorithm timeouts are parameters of the phase-2
  model, constrained by the library contracts where a theorem needs them.
* `simple.DirectedGraph.SetEdge` panics when both endpoints coincide
  ("simple: adding self edge"), so `NewAnalyzer` only completes without
  panicking on inputs whose blocking dependencies contain no self edge;
  `BuildOk` captures that precondition.
-/

namespace BeadsViewer

/-- model.DependencyType is a string type; constant `model.DepBlocks`.
Modelled from the spec: the `model` package is not under `src/`; §3 fixes the
kind vocabulary `{blocks, related, parent_child}` with empty meaning blocks. -/
def DepBlocks : String := "blocks"

/-- Modelled from the spec: kind `related` (never blocks). -/
def DepRelated : String := "related"

/-- Modelled from the spec: kind `parent_child` (never blocks). -/
def DepParentChild : String := "parent_child"

/-- Modelled from the spec: status constant `model.StatusClosed`. -/
def StatusClosed : String := "closed"

/-- Modelled from the spec: status constant `model.StatusOpen`. -/
def StatusOpen : String := "open"

/-- `model.Dependency`: `DependsOnID` and `Type` fields (the two fields the
analysis core reads). -/
structure Dependency where
  dependsOnID : String
  type : String
deriving DecidableEq, Repr

/-- `model.Issue`, restricted to the fields the analysis core reads.
`updatedAt` is measured in hours (rationals); `none` models the zero
`time.Time` (`IsZero`).  `dependencies` entries are pointers. -/
structure Issue where
  id : String
  title : String := ""
  status : String := StatusOpen
  priority : Int := 4
  updatedAt : Option ℚ := none
  dependencies : List (Option Dependency) := []
deriving DecidableEq, Repr

/-- `isBlockingDep` (graph.go:936-941): empty type defaults to blocks. -/
def isBlockingDep (depType : String) : Bool :=
  if depType = "" then true else depType = DepBlocks

/-- One step of building `issueMap`: `issueMap[issue.ID] = issue`
(last write wins, key set grows in first-insertion order). -/
def insertIssue (m : List Issue) (i : Issue) : List Issue :=
  if m.any (fun j => j.id = i.id) then
    m.map (fun j => if j.id = i.id then i else j)
  else
    m ++ [i]

/-- The entries of `issueMap` built in `NewAnalyzer` (graph.go:314-320),
as a canonical association list keyed by `Issue.id`. -/
def issueEntries (issues : List Issue) : List Issue :=
  issues.foldl insertIssue []

/-- `a.issueMap[id]` lookup. -/
def issueFind (issues : List Issue) (id : String) : Option Issue :=
  (issueEntries issues).find? (fun i => i.id = id)

/-- The blocking dependency targets of one issue considered by the edge loop
of `NewAnalyzer` (graph.go:332-347): nil entries are skipped, non-blocking
kinds are skipped. -/
def blockingTargets (i : Issue) : List String :=
  i.dependencies.filterMap (fun d =>
    match d with
    | none => none
    | some d => if isBlockingDep d.type then some d.dependsOnID else none)

/-- The edge multiset handed to `g.SetEdge` in input order: one `(u, v)` per
blocking dependency of `u` whose target `v` exists in the set
(graph.go:326-348). -/
def edgesRaw (issues : List Issue) : List (String × String) :=
  issues.flatMap (fun i =>
    ((blockingTargets i).filter
        (fun t => issues.any (fun j => j.id = t))).map (fun t => (i.id, t)))

/-- The edge set of the `simple.DirectedGraph`: duplicate `SetEdge` calls
collapse to one edge. -/
def edges (issues : List Issue) : List (String × String) :=
  (edgesRaw issues).dedup

/-- `NewAnalyzer` completes without panicking iff no `SetEdge` call is a self
edge: gonum `simple.DirectedGraph.SetEdge` panics when the two endpoint IDs
coincide. -/
def BuildOk (issues : List Issue) : Prop :=
  ∀ e ∈ edgesRaw issues, e.1 ≠ e.2

instance (issues : List Issue) : Decidable (BuildOk issues) := by
  unfold BuildOk; infer_instance

/-- The node ids of the analysis graph (one node per `issueMap` entry). -/
def nodeIds (issues : List Issue) : List String :=
  (issueEntries issues).map Issue.id

/-- `stats.OutDegree[id]` (graph.go:728-729): number of distinct successors. -/
def outDegree (issues : List Issue) (id : String) : ℕ :=
  ((edges issues).filter (fun e => e.1 = id)).length

/-- `stats.InDegree[id]` (graph.go:725-726): number of distinct predecessors. -/
def inDegree (issues : List Issue) (id : String) : ℕ :=
  ((edges issues).filter (fun e => e.2 = id)).length

/-- Nil-pointer dereference used by the Go loops that read `dep.Type` /
`dep.DependsOnID` without a nil check (`GetActionableIssues`, `GetBlockers`,
`GetOpenBlockers`); on `none` the Go code panics, the model substitutes an
inert dependency so those theorems carry an explicit nil-free hypothesis. -/
def derefDep (d : Option Dependency) : Dependency :=
  d.getD ⟨"", DepRelated⟩

/-- All dependency entries of all issues are non-nil (the domain on which the
nil-unchecked Go loops do not panic). -/
def DepsOk (issues : List Issue) : Prop :=
  ∀ i ∈ issues, ∀ d ∈ i.dependencies, d ≠ none

instance (issues : List Issue) : Decidable (DepsOk issues) := by
  unfold DepsOk; infer_instance

/-- The blocked test inside `GetActionableIssues` (graph.go:956-971): some
blocking dependency has a target present in the set whose status is not
closed. -/
def isBlocked (issues : List Issue) (i : Issue) : Bool :=
  i.dependencies.any (fun d =>
    let dep := derefDep d
    isBlockingDep dep.type &&
      match issueFind issues dep.dependsOnID with
      | some blocker => blocker.status ≠ StatusClosed
      | none => false)

/-- `GetActionableIssues` (graph.go:948-979); the iteration order over
`issueMap` is unspecified in Go, the model uses the canonical entry order. -/
def getActionableIssues (issues : List Issue) : List Issue :=
  (issueEntries issues).filter
    (fun i => i.status ≠ StatusClosed && !isBlocked issues i)

/-- `GetBlockers` (graph.go:990-1005). -/
def getBlockers (issues : List Issue) (issueID : String) : List String :=
  match issueFind issues issueID with
  | none => []
  | some issue =>
    issue.dependencies.filterMap (fun d =>
      let dep := derefDep d
      if isBlockingDep dep.type then
        match issueFind issues dep.dependsOnID with
        | some _ => some dep.dependsOnID
        | none => none
      else none)

/-- `GetOpenBlockers` (graph.go:1008-1025). -/
def getOpenBlockers (issues : List Issue) (issueID : String) : List String :=
  match issueFind issues issueID with
  | none => []
  | some issue =>
    issue.dependencies.filterMap (fun d =>
      let dep := derefDep d
      if isBlockingDep dep.type then
        match issueFind issues dep.dependsOnID with
        | some blocker =>
          if blocker.status ≠ StatusClosed then some dep.dependsOnID else none
        | none => none
      else none)

/-! ## Basic facts about the issue map -/

theorem issueEntries_aux (issues : List Issue) :
    ∀ acc : List Issue,
      (acc.map Issue.id ++ issues.map Issue.id).Nodup →
      issues.foldl insertIssue acc = acc ++ issues := by
  induction issues with
  | nil => intro acc _; simp
  | cons i rest ih =>
    intro acc hnd
    have hid : ¬ acc.any (fun j => j.id = i.id) = true := by
      simp only [List.any_eq_true, decide_eq_true_eq]
      rintro ⟨j, hj, hje⟩
      have hji : i.id ∈ (i :: rest).map Issue.id := by simp
      have := (List.nodup_append.mp hnd).2.2
      exact this (hje ▸ List.mem_map_of_mem Issue.id hj) hji
    have hstep : insertIssue acc i = acc ++ [i] := by
      unfold insertIssue
      rw [if_neg hid]
    have hnd2 : ((acc ++ [i]).map Issue.id ++ rest.map Issue.id).Nodup := by
      simpa [List.append_assoc] using hnd
    calc (i :: rest).foldl insertIssue acc
        = rest.foldl insertIssue (insertIssue acc i) := rfl
      _ = rest.foldl insertIssue (acc ++ [i]) := by rw [hstep]
      _ = (acc ++ [i]) ++ rest := ih (acc ++ [i]) hnd2
      _ = acc ++ i :: rest := by simp

/-- With globally unique ids (§3 of the spec) the issue map enumerates the
input in order. -/
theorem issueEntries_eq (issues : List Issue)
    (h : (issues.map Issue.id).Nodup) : issueEntries issues = issues := by
  have := issueEntries_aux issues [] (by simpa using h)
  simpa [issueEntries] using this

theorem issueFind_eq (issues : List Issue)
    (h : (issues.map Issue.id).Nodup) (id : String) :
    issueFind issues id = issues.find? (fun i => i.id = id) := by
  unfold issueFind
  rw [issueEntries_eq issues h]

theorem isBlockingDep_iff (t : String) :
    isBlockingDep t = true ↔ (t = DepBlocks ∨ t = "") := by
  unfold isBlockingDep
  by_cases h : t = ""
  · simp [h]
  · simp [h, decide_eq_true_eq]

theorem find?_eq_some_of_mem (issues : List Issue)
    (hnd : (issues.map Issue.id).Nodup) (b : Issue) (hb : b ∈ issues) :
    issues.find? (fun i => i.id = b.id) = some b := by
  induction issues with
  | nil => cases hb
  | cons j rest ih =>
    have hnd2 : (rest.map Issue.id).Nodup := (List.nodup_cons.mp hnd).2
    have hjne : j.id ∉ rest.map Issue.id := (List.nodup_cons.mp hnd).1
    rcases List.mem_cons.mp hb with hbj | hbr
    · subst hbj
      simp [List.find?_cons_of_pos]
    · have hne : j.id ≠ b.id := by
        intro he
        exact hjne (he ▸ List.mem_map_of_mem Issue.id hbr)
      rw [List.find?_cons_of_neg _ (by simpa using hne)]
      exact ih hnd2 hbr

theorem mem_of_find?_id (issues : List Issue) (t : String) (b : Issue)
    (h : issues.find? (fun i => i.id = t) = some b) :
    b ∈ issues ∧ b.id = t := by
  refine ⟨List.mem_of_find?_eq_some h, ?_⟩
  have := List.find?_some h
  simpa using this

/-- **C1.** `GetActionableIssues` returns exactly the non-closed issues all of
whose blocking dependencies (kind `blocks` or empty) with a target present in
the set point at a closed issue; `related` / `parent_child` kinds and absent
targets never block.  Hypotheses: ids are unique (§3) and no dependency entry
is a nil pointer (the Go loop dereferences entries unchecked). -/
theorem getActionableIssues_spec (issues : List Issue)
    (hnd : (issues.map Issue.id).Nodup) (hdeps : DepsOk issues) (i : Issue) :
    i ∈ getActionableIssues issues ↔
      (i ∈ issues ∧ i.status ≠ StatusClosed ∧
        ∀ d ∈ i.dependencies, ∀ dep : Dependency, d = some dep →
          (dep.type = DepBlocks ∨ dep.type = "") →
          ∀ b ∈ issues, b.id = dep.dependsOnID → b.status = StatusClosed) := by
  unfold getActionableIssues
  rw [issueEntries_eq issues hnd, List.mem_filter]
  constructor
  · rintro ⟨hmem, hpred⟩
    rw [Bool.and_eq_true, Bool.not_eq_true'] at hpred
    obtain ⟨hstat, hblk⟩ := hpred
    refine ⟨hmem, by simpa using hstat, ?_⟩
    intro d hd dep hdep hkind b hbmem hbid
    by_contra hbs
    have : isBlocked issues i = true := by
      unfold isBlocked
      rw [List.any_eq_true]
      refine ⟨d, hd, ?_⟩
      subst hdep
      have hfind : issueFind issues dep.dependsOnID = some b := by
        rw [issueFind_eq issues hnd, ← hbid]
        exact find?_eq_some_of_mem issues hnd b hbmem
      simp only [derefDep, Option.getD_some, hfind, Bool.and_eq_true,
        isBlockingDep_iff]
      exact ⟨hkind, by simpa using hbs⟩
    rw [this] at hblk
    cases hblk
  · rintro ⟨hmem, hstat, hcond⟩
    refine ⟨hmem, ?_⟩
    rw [Bool.and_eq_true, Bool.not_eq_true']
    refine ⟨by simpa using hstat, ?_⟩
    by_contra hblk
    rw [Bool.not_eq_false] at hblk
    unfold isBlocked at hblk
    rw [List.any_eq_true] at hblk
    obtain ⟨d, hd, hpred⟩ := hblk
    obtain ⟨dep, hdep⟩ := Option.ne_none_iff_exists'.mp (hdeps i hmem d hd)
    subst hdep
    simp only [derefDep, Option.getD_some, Bool.and_eq_true] at hpred
    obtain ⟨hkind, hrest⟩ := hpred
    rcases hfind : issueFind issues dep.dependsOnID with _ | blocker
    · rw [hfind] at hrest
      simp at hrest
    · rw [hfind] at hrest
      rw [issueFind_eq issues hnd] at hfind
      obtain ⟨hbmem, hbid⟩ := mem_of_find?_id issues dep.dependsOnID blocker hfind
      have := hcond (some dep) hd dep rfl
        ((isBlockingDep_iff dep.type).mp hkind) blocker hbmem hbid
      simp only [decide_eq_true_eq] at hrest
      exact hrest this

/-- S1-style chain: `A` has a blocking dependency on `B`, `B` on `C`. -/
def issueA : Issue := { id := "A", dependencies := [some ⟨"B", DepBlocks⟩] }

def issueB : Issue := { id := "B", dependencies := [some ⟨"C", DepBlocks⟩] }

def issueC : Issue := { id := "C" }

/-- S1-style chain `A → B → C`, all open, shared by several witnesses. -/
def issuesChain : List Issue := [issueA, issueB, issueC]

/-- Witness for C1 at the concrete chain: `C` is actionable. -/
theorem getActionableIssues_spec_witness :
    issueC ∈ getActionableIssues issuesChain :=
  (getActionableIssues_spec issuesChain (by decide) (by decide) _).mpr
    (by decide)

theorem filterMap_filter_aux {α β : Type} (f g : α → Option β) (p : β → Bool)
    (h : ∀ a, g a = match f a with
      | none => none
      | some b => if p b then some b else none) :
    ∀ l : List α, l.filterMap g = (l.filterMap f).filter p := by
  intro l
  induction l with
  | nil => rfl
  | cons a t ih =>
    rcases hfa : f a with _ | b
    · have hga : g a = none := by rw [h a, hfa]
      simp [List.filterMap_cons, hfa, hga, ih]
    · have hga : g a = if p b then some b else none := by rw [h a, hfa]
      by_cases hp : p b = true
      · simp [List.filterMap_cons, hfa, hga, hp, List.filter_cons, ih]
      · rw [Bool.not_eq_true] at hp
        simp [List.filterMap_cons, hfa, hga, hp, List.filter_cons, ih]

/-- **C10.** `GetOpenBlockers(id)` is the order-preserving sublist of
`GetBlockers(id)` keeping exactly the blockers whose issue is not closed;
for an id absent from the set both return nil.  Hypotheses as in C1. -/
theorem getOpenBlockers_spec (issues : List Issue)
    (hnd : (issues.map Issue.id).Nodup) (hdeps : DepsOk issues) (id : String) :
    getOpenBlockers issues id =
        (getBlockers issues id).filter (fun bid =>
          match issueFind issues bid with
          | some b => decide (b.status ≠ StatusClosed)
          | none => false) ∧
      List.Sublist (getOpenBlockers issues id) (getBlockers issues id) ∧
      ((∀ i ∈ issues, i.id ≠ id) →
        getBlockers issues id = [] ∧ getOpenBlockers issues id = []) := by
  have habsent : (∀ i ∈ issues, i.id ≠ id) → issueFind issues id = none := by
    intro hno
    rw [issueFind_eq issues hnd]
    apply List.find?_eq_none.mpr
    intro i hi
    simpa using hno i hi
  have hfilter : getOpenBlockers issues id =
      (getBlockers issues id).filter (fun bid =>
        match issueFind issues bid with
        | some b => decide (b.status ≠ StatusClosed)
        | none => false) := by
    unfold getOpenBlockers getBlockers
    rcases hfind : issueFind issues id with _ | issue
    · rfl
    · apply filterMap_filter_aux
      intro d
      rcases hblocking : isBlockingDep (derefDep d).type with _ | _
      · simp [hblocking]
      · rcases htarget : issueFind issues (derefDep d).dependsOnID with _ | b
        · simp [hblocking, htarget]
        · simp only [hblocking, if_true, htarget]
          by_cases hs : b.status = StatusClosed
          · simp [hs]
          · simp [hs]
  refine ⟨hfilter, ?_, ?_⟩
  · rw [hfilter]
    exact List.filter_sublist _
  · intro hno
    have hfind := habsent hno
    constructor
    · unfold getBlockers
      rw [hfind]
    · unfold getOpenBlockers
      rw [hfind]

/-- Witness for C10 at a concrete input: `A` depends on open `B` and closed
`C`; open blockers are the filtered blockers, and an unknown id yields nil. -/
theorem getOpenBlockers_spec_witness :
    getOpenBlockers
        [{ id := "A", dependencies := [some ⟨"B", DepBlocks⟩, some ⟨"C", DepBlocks⟩] },
         { id := "B" }, { id := "C", status := StatusClosed }] "A" =
      (getBlockers
          [{ id := "A", dependencies := [some ⟨"B", DepBlocks⟩, some ⟨"C", DepBlocks⟩] },
           { id := "B" }, { id := "C", status := StatusClosed }] "A").filter
        (fun bid =>
          match issueFind
              [{ id := "A", dependencies := [some ⟨"B", DepBlocks⟩, some ⟨"C", DepBlocks⟩] },
               { id := "B" }, { id := "C", status := StatusClosed }] bid with
          | some b => decide (b.status ≠ StatusClosed)
          | none => false) :=
  (getOpenBlockers_spec
      [{ id := "A", dependencies := [some ⟨"B", DepBlocks⟩, some ⟨"C", DepBlocks⟩] },
       { id := "B" }, { id := "C", status := StatusClosed }]
      (by decide) (by decide) "A").1

/-! ## Directed walks and cycles

Independent semantic reference for "the blocks subgraph is acyclic", against
which the embedded topological sort (`topo.Sort`) is verified. -/

/-- A directed walk along the edge list `E`. -/
inductive Walk (E : List (String × String)) : String → String → Prop
  | refl (u : String) : Walk E u u
  | cons {u v w : String} : (u, v) ∈ E → Walk E v w → Walk E u w

/-- The graph has a directed cycle: an edge closed by a (possibly empty)
return walk. -/
def HasCycle (E : List (String × String)) : Prop :=
  ∃ u v, (u, v) ∈ E ∧ Walk E v u

/-- Acyclicity of the blocks subgraph. -/
def Acyclic (E : List (String × String)) : Prop := ¬ HasCycle E

theorem Walk.trans {E : List (String × String)} {u v w : String}
    (h1 : Walk E u v) (h2 : Walk E v w) : Walk E u w := by
  induction h1 with
  | refl => exact h2
  | cons he _ ih => exact Walk.cons he (ih h2)

/-! ## Kahn topological sort (model of gonum topo.Sort)

`topo.Sort` returns the nodes with every edge `u → v` listing `u` before `v`,
and an error when the graph is cyclic.  The model removes in-degree-zero
nodes first; its output is verified sound and complete against `HasCycle`. -/

/-- A node of `rem` with no incoming edge from `rem`. -/
def pick (E : List (String × String)) (rem : List String) : Option String :=
  rem.find? (fun v => ! E.any (fun e => e.2 = v && rem.any (fun x => e.1 = x)))

def kahnAux (E : List (String × String)) :
    ℕ → List String → List String → Option (List String)
  | 0, rem, acc => if rem.isEmpty then some acc.reverse else none
  | fuel + 1, rem, acc =>
    if rem.isEmpty then some acc.reverse
    else
      match pick E rem with
      | none => none
      | some v => kahnAux E fuel (rem.erase v) (v :: acc)

/-- Topological sort: `some` of a dependency-respecting order on a DAG,
`none` when a cycle exists. -/
def kahn (V : List String) (E : List (String × String)) :
    Option (List String) :=
  kahnAux E V.length V []

theorem pick_mem {E : List (String × String)} {rem : List String} {v : String}
    (h : pick E rem = some v) : v ∈ rem :=
  List.mem_of_find?_eq_some h

theorem pick_no_incoming {E : List (String × String)} {rem : List String}
    {v : String} (h : pick E rem = some v) :
    ∀ u ∈ rem, (u, v) ∉ E := by
  have hp := List.find?_some h
  rw [Bool.not_eq_true', List.any_eq_false] at hp
  intro u hu he
  have h2 := hp (u, v) he
  apply h2
  rw [Bool.and_eq_true]
  refine ⟨by simp, ?_⟩
  rw [List.any_eq_true]
  exact ⟨u, hu, by simp⟩

theorem pick_none {E : List (String × String)} {rem : List String}
    (h : pick E rem = none) : ∀ v ∈ rem, ∃ u ∈ rem, (u, v) ∈ E := by
  intro v hv
  have hp := List.find?_eq_none.mp h v hv
  rw [Bool.not_eq_true', Bool.not_eq_false, List.any_eq_true] at hp
  obtain ⟨e, heE, hcond⟩ := hp
  rw [Bool.and_eq_true] at hcond
  obtain ⟨he2, he1⟩ := hcond
  rw [List.any_eq_true] at he1
  obtain ⟨x, hx, hex⟩ := he1
  rw [decide_eq_true_eq] at he2 hex
  refine ⟨e.1, by rw [hex]; exact hx, ?_⟩
  have : e = (e.1, v) := by
    rcases e with ⟨a, b⟩
    simp only at he2
    simp [he2]
  rwa [this] at heE

/-- Soundness invariant of the Kahn loop: a successful run appends a
permutation of `rem` on which no edge points backwards and no node carries a
self loop. -/
theorem kahnAux_sound (E : List (String × String)) :
    ∀ (fuel : ℕ) (rem acc l : List String),
      kahnAux E fuel rem acc = some l →
      ∃ ord, l = acc.reverse ++ ord ∧ rem.Perm ord ∧
        ord.Pairwise (fun x y => (y, x) ∉ E) ∧ ∀ v ∈ ord, (v, v) ∉ E := by
  intro fuel
  induction fuel with
  | zero =>
    intro rem acc l h
    unfold kahnAux at h
    by_cases hrem : rem.isEmpty
    · rw [if_pos hrem, Option.some_inj] at h
      refine ⟨[], by simp [h.symm], ?_, by simp, by simp⟩
      rw [List.isEmpty_iff.mp hrem]
    · rw [if_neg hrem] at h
      cases h
  | succ fuel ih =>
    intro rem acc l h
    unfold kahnAux at h
    by_cases hrem : rem.isEmpty
    · rw [if_pos hrem, Option.some_inj] at h
      refine ⟨[], by simp [h.symm], ?_, by simp, by simp⟩
      rw [List.isEmpty_iff.mp hrem]
    · rw [if_neg hrem] at h
      rcases hpick : pick E rem with _ | v
      · rw [hpick] at h; cases h
      · rw [hpick] at h
        obtain ⟨ord, hl, hperm, hpw, hself⟩ := ih (rem.erase v) (v :: acc) l h
        refine ⟨v :: ord, ?_, ?_, ?_, ?_⟩
        · rw [hl]; simp
        · exact ((List.perm_cons_erase (pick_mem hpick)).trans
            (hperm.cons v))
        · rw [List.pairwise_cons]
          refine ⟨?_, hpw⟩
          intro y hy
          have hymem : y ∈ rem :=
            List.mem_of_mem_erase (hperm.symm.subset hy)
          exact fun he => pick_no_incoming hpick y hymem he
        · intro w hw
          rcases List.mem_cons.mp hw with hwv | hwo
          · subst hwv
            exact pick_no_incoming hpick w (pick_mem hpick)
          · exact hself w hwo

/-- If every node of a nonempty set has a predecessor inside the set, the
graph has a cycle (pigeonhole on an infinite backwards walk). -/
theorem hasCycle_of_all_have_pred (E : List (String × String))
    (S : List String) (hne : S ≠ [])
    (h : ∀ v ∈ S, ∃ u ∈ S, (u, v) ∈ E) : HasCycle E := by
  obtain ⟨v0, hv0⟩ := List.exists_mem_of_ne_nil S hne
  have hchoice : ∀ v : {x // x ∈ S}, ∃ u : {x // x ∈ S}, (u.1, v.1) ∈ E := by
    rintro ⟨v, hv⟩
    obtain ⟨u, hu, he⟩ := h v hv
    exact ⟨⟨u, hu⟩, he⟩
  choose g hg using hchoice
  set f : ℕ → {x // x ∈ S} :=
    fun n => Nat.rec (motive := fun _ => {x // x ∈ S}) ⟨v0, hv0⟩
      (fun _ p => g p) n with hf
  have hstep : ∀ n : ℕ, ((f (n + 1)).1, (f n).1) ∈ E := by
    intro n
    have : f (n + 1) = g (f n) := rfl
    rw [this]
    exact hg (f n)
  have hwalk : ∀ i j : ℕ, i ≤ j → Walk E (f j).1 (f i).1 := by
    intro i j hij
    induction j, hij using Nat.le_induction with
    | base => exact Walk.refl _
    | succ k hk ih => exact Walk.cons (hstep k) ih
  have hcard : S.toFinset.card < (Finset.univ : Finset (Fin (S.length + 1))).card := by
    rw [Finset.card_univ, Fintype.card_fin]
    exact Nat.lt_succ_of_le S.toFinset_card_le
  obtain ⟨i, _, j, _, hij, hfe⟩ :=
    Finset.exists_ne_map_eq_of_card_lt_of_maps_to hcard
      (f := fun k : Fin (S.length + 1) => (f k.1).1)
      (fun k _ => List.mem_toFinset.mpr (f k.1).2)
  rcases Nat.lt_or_ge i.1 j.1 with hlt | hge
  · obtain ⟨m, hm⟩ : ∃ m, j.1 = m + 1 :=
      ⟨j.1 - 1, by omega⟩
    refine ⟨(f j.1).1, (f m).1, by rw [hm]; exact hstep m, ?_⟩
    have hw : Walk E (f m).1 (f i.1).1 := hwalk i.1 m (by omega)
    rwa [hfe] at hw
  · have hlt2 : j.1 < i.1 := by
      rcases Nat.lt_or_ge j.1 i.1 with h2 | h2
      · exact h2
      · exact absurd (Fin.ext (by omega)) hij
    obtain ⟨m, hm⟩ : ∃ m, i.1 = m + 1 := ⟨i.1 - 1, by omega⟩
    refine ⟨(f i.1).1, (f m).1, by rw [hm]; exact hstep m, ?_⟩
    have hw : Walk E (f m).1 (f j.1).1 := hwalk j.1 m (by omega)
    rwa [← hfe] at hw

/-- Completeness of the Kahn loop: on an acyclic graph it never gets stuck. -/
theorem kahnAux_complete (E : List (String × String)) (hacyc : Acyclic E) :
    ∀ (fuel : ℕ) (rem acc : List String), rem.Nodup →
      rem.length ≤ fuel → ∃ l, kahnAux E fuel rem acc = some l := by
  intro fuel
  induction fuel with
  | zero =>
    intro rem acc _ hlen
    have : rem = [] := List.eq_nil_of_length_eq_zero (Nat.le_zero.mp hlen)
    subst this
    exact ⟨acc.reverse, by unfold kahnAux; simp⟩
  | succ fuel ih =>
    intro rem acc hnd hlen
    by_cases hrem : rem.isEmpty
    · exact ⟨acc.reverse, by unfold kahnAux; rw [if_pos hrem]⟩
    · have hne : rem ≠ [] := by
        intro h; rw [h] at hrem; exact hrem rfl
      rcases hpick : pick E rem with _ | v
      · exact absurd (hasCycle_of_all_have_pred E rem hne (pick_none hpick))
          hacyc
      · have hvmem := pick_mem hpick
        have hlen2 : (rem.erase v).length ≤ fuel := by
          rw [List.length_erase_of_mem hvmem]
          omega
        obtain ⟨l, hl⟩ := ih (rem.erase v) (v :: acc) (hnd.erase v) hlen2
        refine ⟨l, ?_⟩
        unfold kahnAux
        rw [if_neg hrem, hpick]
        exact hl

/-! ## Ordering along a list, via two-element sublists -/

theorem sublist_pair_total {l : List String} {a b : String}
    (ha : a ∈ l) (hb : b ∈ l) (hne : a ≠ b) :
    List.Sublist [a, b] l ∨ List.Sublist [b, a] l := by
  induction l with
  | nil => cases ha
  | cons x t ih =>
    by_cases hxa : x = a
    · subst hxa
      have hbt : b ∈ t := by
        rcases List.mem_cons.mp hb with h | h
        · exact absurd h.symm hne
        · exact h
      exact Or.inl (List.Sublist.cons₂ x (List.singleton_sublist.mpr hbt))
    · by_cases hxb : x = b
      · subst hxb
        have hat : a ∈ t := by
          rcases List.mem_cons.mp ha with h | h
          · exact absurd h hne
          · exact h
        exact Or.inr (List.Sublist.cons₂ x (List.singleton_sublist.mpr hat))
      · have hat : a ∈ t := by
          rcases List.mem_cons.mp ha with h | h
          · exact absurd h.symm hxa
          · exact h
        have hbt : b ∈ t := by
          rcases List.mem_cons.mp hb with h | h
          · exact absurd h.symm hxb
          · exact h
        rcases ih hat hbt with h | h
        · exact Or.inl (List.Sublist.cons x h)
        · exact Or.inr (List.Sublist.cons x h)

theorem sublist_pair_trans {l : List String} {x y z : String}
    (hnd : l.Nodup) (h1 : List.Sublist [x, y] l)
    (h2 : List.Sublist [y, z] l) : List.Sublist [x, z] l := by
  induction l with
  | nil => cases h1
  | cons w t ih =>
    have hwt : w ∉ t := (List.nodup_cons.mp hnd).1
    have hndt : t.Nodup := (List.nodup_cons.mp hnd).2
    cases h1 with
    | cons₂ _ h1tail =>
      have hyt : y ∈ t := List.singleton_sublist.mp h1tail
      cases h2 with
      | cons₂ _ h2tail =>
        exact absurd hyt hwt
      | cons _ h2t =>
        have hzt : z ∈ t := h2t.subset (show z ∈ [y, z] by simp)
        exact List.Sublist.cons₂ _ (List.singleton_sublist.mpr hzt)
    | cons _ h1t =>
      have hyt : y ∈ t := h1t.subset (show y ∈ [x, y] by simp)
      cases h2 with
      | cons₂ _ h2tail =>
        exact absurd hyt hwt
      | cons _ h2t =>
        exact List.Sublist.cons _ (ih hndt h1t h2t)

/-- In a Kahn output, every edge goes strictly forward. -/
theorem edge_sublist_of_order {E : List (String × String)} {ord : List String}
    {u v : String}
    (hpw : ord.Pairwise (fun x y => (y, x) ∉ E))
    (hself : ∀ w ∈ ord, (w, w) ∉ E)
    (hu : u ∈ ord) (hv : v ∈ ord) (he : (u, v) ∈ E) :
    List.Sublist [u, v] ord := by
  have hne : u ≠ v := by
    intro h
    subst h
    exact hself u hu he
  rcases sublist_pair_total hu hv hne with h | h
  · exact h
  · exact absurd he (List.pairwise_iff_forall_sublist.mp hpw h)

theorem walk_sublist_of_order {E : List (String × String)} {ord : List String}
    (hnd : ord.Nodup)
    (hpw : ord.Pairwise (fun x y => (y, x) ∉ E))
    (hself : ∀ w ∈ ord, (w, w) ∉ E)
    (hE : ∀ e ∈ E, e.1 ∈ ord ∧ e.2 ∈ ord) :
    ∀ {a b : String}, Walk E a b → a = b ∨ List.Sublist [a, b] ord := by
  intro a b hw
  induction hw with
  | refl => exact Or.inl rfl
  | @cons u v w he hwv ih =>
    have hu : u ∈ ord := (hE (u, v) he).1
    have hv : v ∈ ord := (hE (u, v) he).2
    have huv : List.Sublist [u, v] ord := edge_sublist_of_order hpw hself hu hv he
    rcases ih with h | h
    · exact Or.inr (h ▸ huv)
    · exact Or.inr (sublist_pair_trans hnd huv h)

/-- A successful Kahn run certifies acyclicity. -/
theorem acyclic_of_kahn_some {V : List String} {E : List (String × String)}
    {l : List String} (hndV : V.Nodup)
    (hE : ∀ e ∈ E, e.1 ∈ V ∧ e.2 ∈ V)
    (h : kahn V E = some l) : Acyclic E := by
  obtain ⟨ord, hl, hperm, hpw, hself⟩ :=
    kahnAux_sound E V.length V [] l h
  have hndo : ord.Nodup := hperm.nodup hndV
  have hEo : ∀ e ∈ E, e.1 ∈ ord ∧ e.2 ∈ ord := by
    intro e he
    exact ⟨hperm.subset (hE e he).1, hperm.subset (hE e he).2⟩
  rintro ⟨u, v, he, hwalk⟩
  have hu : u ∈ ord := (hEo (u, v) he).1
  have hv : v ∈ ord := (hEo (u, v) he).2
  have huv : List.Sublist [u, v] ord := edge_sublist_of_order hpw hself hu hv he
  rcases walk_sublist_of_order hndo hpw hself hEo hwalk with hvu | hvu
  · subst hvu
    exact hself v hv he
  · have huu : List.Sublist [u, u] ord := sublist_pair_trans hndo huv hvu
    have : ([u, u] : List String).Nodup := huu.nodup hndo
    simp at this

/-- On an acyclic graph Kahn succeeds. -/
theorem kahn_some_of_acyclic {V : List String} {E : List (String × String)}
    (hndV : V.Nodup) (hacyc : Acyclic E) : ∃ l, kahn V E = some l :=
  kahnAux_complete E hacyc V.length V [] hndV (Nat.le_refl _)

/-- Shape of a successful top-level Kahn run. -/
theorem kahn_spec {V : List String} {E : List (String × String)}
    {l : List String} (h : kahn V E = some l) :
    V.Perm l ∧ l.Pairwise (fun x y => (y, x) ∉ E) ∧ ∀ v ∈ l, (v, v) ∉ E := by
  obtain ⟨ord, hl, hperm, hpw, hself⟩ :=
    kahnAux_sound E V.length V [] l h
  simp only [List.reverse_nil, List.nil_append] at hl
  subst hl
  exact ⟨hperm, hpw, hself⟩

/-! ## Phase 1 / Phase 2 published results

`AnalysisConfig` is defined outside `src/`; the fields below are exactly the
ones `graph.go` reads (enable bits, cycle cap).  Timeouts and the raw outputs
of the gonum algorithms (PageRank scores, Tarjan SCC pre-check, Johnson cycle
enumeration) are wall-clock/library events, passed to the model as
parameters. -/

structure AnalysisConfig where
  computePageRank : Bool := true
  computeCriticalPath : Bool := true
  computeCycles : Bool := true
  maxCyclesToStore : ℕ := 0
deriving DecidableEq, Repr

/-- `stats.TopologicalOrder` (graph.go:732-738): the reversed `topo.Sort`
output on success, empty on a cycle error. -/
def topologicalOrder (issues : List Issue) : List String :=
  match kahn (nodeIds issues) (edges issues) with
  | some l => l.reverse
  | none => []

/-- The effective cycle cap (graph.go:851-854): `0` means the default `100`. -/
def maxCyclesEff (cfg : AnalysisConfig) : ℕ :=
  if cfg.maxCyclesToStore = 0 then 100 else cfg.maxCyclesToStore

/-- The published `stats.cycles` (graph.go:850-895).  `hasCyclesB` is the
Tarjan SCC pre-check (`some SCC has size > 1`), `enumerated` the id lists of
`topo.DirectedCyclesIn`, `timedOut` whether the enumeration missed its
deadline. -/
def cyclesPublished (cfg : AnalysisConfig) (hasCyclesB : Bool)
    (enumerated : List (List String)) (timedOut : Bool) :
    List (List String) :=
  if cfg.computeCycles then
    if hasCyclesB then
      if timedOut then [["CYCLE_DETECTION_TIMEOUT"]]
      else
        let toProcess := enumerated.take (maxCyclesEff cfg)
        if enumerated.length > maxCyclesEff cfg then
          toProcess ++ [["...", "CYCLES_TRUNCATED"]]
        else toProcess
    else []
  else []

/-- The published `stats.pageRank` (graph.go:764-782).  `prLib` is the
`network.PageRank` output keyed by issue id; on timeout every `issueMap` key
gets the uniform `1/|V|`. -/
def pageRankPublished (cfg : AnalysisConfig) (prLib : List (String × ℚ))
    (timedOut : Bool) (issues : List Issue) : List (String × ℚ) :=
  if cfg.computePageRank then
    if timedOut then
      (issueEntries issues).map
        (fun i => (i.id, 1 / ((issueEntries issues).length : ℚ)))
    else prLib
  else []

/-- Predecessor endpoints of `v`: the `To(v)` iterator of the simple graph. -/
def predsList (E : List (String × String)) (v : String) : List String :=
  (E.filter (fun e => e.2 = v)).map (fun e => e.1)

/-- `maxParentHeight` (graph.go:916-926): fold over the predecessors, keeping
heights already assigned. -/
def maxParentHeight (E : List (String × String)) (acc : List (String × ℚ))
    (v : String) : ℚ :=
  (predsList E v).foldl
    (fun m u =>
      match acc.find? (fun p => p.1 = u) with
      | some p => max m p.2
      | none => m) 0

/-- The `computeHeights` loop (graph.go:910-932) over the topologically
sorted nodes, as an association list in processing order. -/
def computeHeightsAux (E : List (String × String)) :
    List (String × ℚ) → List String → List (String × ℚ)
  | acc, [] => acc
  | acc, v :: rest =>
    computeHeightsAux E (acc ++ [(v, 1 + maxParentHeight E acc v)]) rest

def computeHeights (E : List (String × String)) (sorted : List String) :
    List (String × ℚ) :=
  computeHeightsAux E [] sorted

/-- The published `stats.criticalPathScore` (graph.go:842-847 and 760):
empty when disabled or when `topo.Sort` fails (cyclic graph). -/
def criticalPathPublished (cfg : AnalysisConfig) (issues : List Issue) :
    List (String × ℚ) :=
  if cfg.computeCriticalPath then
    match kahn (nodeIds issues) (edges issues) with
    | some sorted => computeHeights (edges issues) sorted
    | none => []
  else []

/-- Lookup with the Go zero-value default. -/
def lookupQ (m : List (String × ℚ)) (id : String) : ℚ :=
  match m.find? (fun p => p.1 = id) with
  | some p => p.2
  | none => 0

theorem edges_endpoints (issues : List Issue)
    (hnd : (issues.map Issue.id).Nodup) :
    ∀ e ∈ edges issues, e.1 ∈ nodeIds issues ∧ e.2 ∈ nodeIds issues := by
  intro e he
  rw [edges, List.mem_dedup] at he
  rw [edgesRaw, List.mem_flatMap] at he
  obtain ⟨i, hi, hmem⟩ := he
  rw [List.mem_map] at hmem
  obtain ⟨t, ht, hte⟩ := hmem
  rw [List.mem_filter] at ht
  obtain ⟨_, ht2⟩ := ht
  rw [List.any_eq_true] at ht2
  obtain ⟨j, hj, hjt⟩ := ht2
  rw [decide_eq_true_eq] at hjt
  subst hte
  constructor
  · simp only [nodeIds, issueEntries_eq issues hnd]
    exact List.mem_map_of_mem Issue.id hi
  · simp only [nodeIds, issueEntries_eq issues hnd]
    exact hjt ▸ List.mem_map_of_mem Issue.id hj

/-- **C3 counterexample.** On the empty input set the blocks subgraph is
acyclic yet `TopologicalOrder` is empty, so "non-empty iff acyclic" fails as
stated for arbitrary input sets. -/
theorem topologicalOrder_claim_counterexample :
    ¬ (topologicalOrder ([] : List Issue) ≠ [] ↔
        Acyclic (edges ([] : List Issue))) := by
  intro h
  have hacyc : Acyclic (edges ([] : List Issue)) := by
    rintro ⟨u, v, he, _⟩
    simp [edges, edgesRaw] at he
  exact (h.mpr hacyc) rfl

/-- **C3 (amended).** For every NON-EMPTY input set (unique ids, construction
not panicking): `TopologicalOrder` is non-empty iff the blocks subgraph is
acyclic; when non-empty it lists all node ids and every edge `u → v` has the
id of `v` before the id of `u`; when a cycle exists `TopologicalOrder` is
empty and — given the library contracts that the Tarjan pre-check reports a
multi-node SCC on a cyclic self-loop-free graph and that
`topo.DirectedCyclesIn` returns at least one cycle there — the published
cycle list of phase 2 (enabled, not timed out) is non-empty, subject to
truncation. -/
theorem topologicalOrder_spec (issues : List Issue)
    (hnd : (issues.map Issue.id).Nodup) (hok : BuildOk issues)
    (hne : issues ≠ []) :
    (topologicalOrder issues ≠ [] ↔ Acyclic (edges issues)) ∧
      (topologicalOrder issues ≠ [] →
        (topologicalOrder issues).Perm (nodeIds issues) ∧
          ∀ e ∈ edges issues,
            List.Sublist [e.2, e.1] (topologicalOrder issues)) ∧
      (HasCycle (edges issues) →
        topologicalOrder issues = [] ∧
          ∀ (cfg : AnalysisConfig) (enumerated : List (List String)),
            cfg.computeCycles = true → enumerated ≠ [] →
            cyclesPublished cfg true enumerated false ≠ []) := by
  have hndV : (nodeIds issues).Nodup := by
    simpa [nodeIds, issueEntries_eq issues hnd] using hnd
  have hVne : nodeIds issues ≠ [] := by
    simp only [nodeIds, issueEntries_eq issues hnd]
    intro h
    exact hne (List.map_eq_nil_iff.mp h)
  have hEnd := edges_endpoints issues hnd
  have hiff : topologicalOrder issues ≠ [] ↔ Acyclic (edges issues) := by
    constructor
    · intro h
      rcases hk : kahn (nodeIds issues) (edges issues) with _ | l
      · unfold topologicalOrder at h
        rw [hk] at h
        exact absurd rfl h
      · exact acyclic_of_kahn_some hndV hEnd hk
    · intro hacyc
      obtain ⟨l, hl⟩ := kahn_some_of_acyclic hndV hacyc
      have hperm := (kahn_spec hl).1
      unfold topologicalOrder
      rw [hl]
      intro hrev
      rw [List.reverse_eq_nil_iff] at hrev
      subst hrev
      exact hVne (List.Perm.eq_nil hperm)
  refine ⟨hiff, ?_, ?_⟩
  · intro h
    rcases hk : kahn (nodeIds issues) (edges issues) with _ | l
    · unfold topologicalOrder at h
      rw [hk] at h
      exact absurd rfl h
    · obtain ⟨hperm, hpw, hself⟩ := kahn_spec hk
      have hto : topologicalOrder issues = l.reverse := by
        unfold topologicalOrder
        rw [hk]
      constructor
      · rw [hto]
        exact (l.reverse_perm).trans hperm.symm
      · intro e he
        have h1 : e.1 ∈ l := hperm.subset (hEnd e he).1
        have h2 : e.2 ∈ l := hperm.subset (hEnd e he).2
        have hsub : List.Sublist [e.1, e.2] l :=
          edge_sublist_of_order hpw hself h1 h2 (by
            rcases e with ⟨a, b⟩
            exact he)
        rw [hto]
        have := hsub.reverse
        simpa using this
  · intro hcyc
    have hto : topologicalOrder issues = [] := by
      by_contra h
      exact (hiff.mp h) hcyc
    refine ⟨hto, ?_⟩
    intro cfg enumerated hen hnonempty
    unfold cyclesPublished
    rw [hen]
    have hmax : maxCyclesEff cfg ≠ 0 := by
      unfold maxCyclesEff
      by_cases h : cfg.maxCyclesToStore = 0
      · simp [h]
      · simp [h]
    rcases henum : enumerated with _ | ⟨c, rest⟩
    · exact absurd henum hnonempty
    · rcases hm : maxCyclesEff cfg with _ | n
      · exact absurd hm hmax
      · by_cases hlen : n < rest.length
        · simp [hm, hlen]
        · simp [hm, hlen]

/-- Witness for C3 (amended) at the concrete chain. -/
theorem topologicalOrder_spec_witness :
    topologicalOrder issuesChain ≠ [] ↔ Acyclic (edges issuesChain) :=
  (topologicalOrder_spec issuesChain (by decide) (by decide) (by decide)).1

/-! ## Critical-path depth (C4) -/

theorem computeHeightsAux_append (E : List (String × String)) :
    ∀ (l1 l2 : List String) (acc : List (String × ℚ)),
      computeHeightsAux E acc (l1 ++ l2) =
        computeHeightsAux E (computeHeightsAux E acc l1) l2 := by
  intro l1
  induction l1 with
  | nil => intro l2 acc; rfl
  | cons v rest ih =>
    intro l2 acc
    simp only [List.cons_append, computeHeightsAux]
    exact ih l2 _

theorem computeHeightsAux_keys (E : List (String × String)) :
    ∀ (l : List String) (acc : List (String × ℚ)),
      (computeHeightsAux E acc l).map Prod.fst = acc.map Prod.fst ++ l := by
  intro l
  induction l with
  | nil => intro acc; simp [computeHeightsAux]
  | cons v rest ih =>
    intro acc
    simp only [computeHeightsAux]
    rw [ih]
    simp

theorem computeHeightsAux_preserves (E : List (String × String)) :
    ∀ (l : List String) (acc : List (String × ℚ)) (u : String)
      (p : String × ℚ),
      acc.find? (fun q => q.1 = u) = some p →
      (computeHeightsAux E acc l).find? (fun q => q.1 = u) = some p := by
  intro l
  induction l with
  | nil => intro acc u p h; exact h
  | cons v rest ih =>
    intro acc u p h
    simp only [computeHeightsAux]
    apply ih
    rw [List.find?_append, h]
    rfl

theorem find?_key_eq_none {acc : List (String × ℚ)} {u : String}
    (h : u ∉ acc.map Prod.fst) : acc.find? (fun q => q.1 = u) = none := by
  apply List.find?_eq_none.mpr
  intro p hp
  simp only [decide_eq_true_eq]
  intro he
  exact h (he ▸ List.mem_map_of_mem Prod.fst hp)

theorem find?_key_isSome {acc : List (String × ℚ)} {u : String}
    (h : u ∈ acc.map Prod.fst) :
    ∃ p, acc.find? (fun q => q.1 = u) = some p ∧ p.1 = u := by
  rw [List.mem_map] at h
  obtain ⟨q, hq, hqu⟩ := h
  have : (acc.find? (fun q => q.1 = u)).isSome := by
    rw [List.find?_isSome]
    exact ⟨q, hq, by simp [hqu]⟩
  rcases hp : acc.find? (fun q => q.1 = u) with _ | p
  · rw [hp] at this; cases this
  · have h2 := List.find?_some hp
    rw [decide_eq_true_eq] at h2
    exact ⟨p, hp, h2⟩

/-- The height assigned to `v` is determined by the accumulator built from
the prefix preceding `v`. -/
theorem computeHeights_at (E : List (String × String))
    (l1 l2 : List String) (v : String)
    (hnd : (l1 ++ v :: l2).Nodup) :
    (computeHeights E (l1 ++ v :: l2)).find? (fun q => q.1 = v) =
      some (v, 1 + maxParentHeight E (computeHeightsAux E [] l1) v) := by
  unfold computeHeights
  rw [computeHeightsAux_append]
  have hkeys : (computeHeightsAux E ([] : List (String × ℚ)) l1).map Prod.fst = l1 := by
    rw [computeHeightsAux_keys]
    simp
  have hvl1 : v ∉ l1 := by
    rcases List.nodup_append.mp hnd with ⟨_, _, hdisj⟩
    intro hv
    exact hdisj hv (by simp)
  simp only [computeHeightsAux]
  apply computeHeightsAux_preserves
  have hvkeys : v ∉ (computeHeightsAux E ([] : List (String × ℚ)) l1).map Prod.fst := by
    rw [hkeys]; exact hvl1
  rw [List.find?_append, find?_key_eq_none hvkeys]
  simp

theorem foldr_max_exchange : ∀ (t : List ℚ) (a b : ℚ),
    t.foldr max (max a b) = max b (t.foldr max a) := by
  intro t
  induction t with
  | nil => intro a b; exact max_comm a b
  | cons y t ih =>
    intro a b
    simp only [List.foldr_cons]
    rw [ih a b, max_left_comm]

theorem foldl_max_eq_foldr : ∀ (l : List ℚ) (a : ℚ),
    l.foldl max a = l.foldr max a := by
  intro l
  induction l with
  | nil => intro a; rfl
  | cons x t ih =>
    intro a
    simp only [List.foldl_cons, List.foldr_cons]
    rw [ih (max a x), foldr_max_exchange]

/-- Fold conversion: when every predecessor already has an entry whose value
matches `f`, `maxParentHeight` is the plain maximum of `f` over the
predecessors. -/
theorem fold_match_eq (acc : List (String × ℚ)) (f : String → ℚ) :
    ∀ L : List String,
      (∀ u ∈ L, ∃ p, acc.find? (fun q => q.1 = u) = some p ∧ p.2 = f u) →
      ∀ m0 : ℚ,
        L.foldl (fun m u =>
          match acc.find? (fun q => q.1 = u) with
          | some p => max m p.2
          | none => m) m0 =
        L.foldl (fun m u => max m (f u)) m0 := by
  intro L
  induction L with
  | nil => intro _ m0; rfl
  | cons u rest ih =>
    intro h m0
    obtain ⟨p, hp, hpf⟩ := h u (by simp)
    simp only [List.foldl_cons, hp, hpf]
    exact ih (fun w hw => h w (by simp [hw])) (max m0 (f u))

theorem maxParentHeight_eq (E : List (String × String))
    (acc : List (String × ℚ)) (v : String) (f : String → ℚ)
    (h : ∀ u ∈ predsList E v,
      ∃ p, acc.find? (fun q => q.1 = u) = some p ∧ p.2 = f u) :
    maxParentHeight E acc v = ((predsList E v).map f).foldr max 0 := by
  unfold maxParentHeight
  rw [fold_match_eq acc f (predsList E v) h 0, ← foldl_max_eq_foldr,
    ← List.foldl_map]

theorem mem_predsList {E : List (String × String)} {v u : String} :
    u ∈ predsList E v ↔ (u, v) ∈ E := by
  unfold predsList
  rw [List.mem_map]
  constructor
  · rintro ⟨e, he, heu⟩
    rw [List.mem_filter] at he
    obtain ⟨heE, hev⟩ := he
    rw [decide_eq_true_eq] at hev
    have : e = (u, v) := by
      rcases e with ⟨a, b⟩
      simp only at heu hev
      simp [heu, hev]
    rwa [this] at heE
  · intro he
    exact ⟨(u, v), by rw [List.mem_filter]; exact ⟨he, by simp⟩, rfl⟩

theorem pair_sublist_mem_left {u v : String} :
    ∀ {l1 l2 : List String}, (l1 ++ v :: l2).Nodup →
      List.Sublist [u, v] (l1 ++ v :: l2) → u ∈ l1 := by
  intro l1
  induction l1 with
  | nil =>
    intro l2 hnd hsub
    exfalso
    simp only [List.nil_append] at hnd hsub
    have hvl2 : v ∉ l2 := (List.nodup_cons.mp hnd).1
    cases hsub with
    | cons₂ _ htail =>
      exact hvl2 (List.singleton_sublist.mp htail)
    | cons _ htail =>
      exact hvl2 (htail.subset (show v ∈ [u, v] by simp))
  | cons w t ih =>
    intro l2 hnd hsub
    simp only [List.cons_append] at hnd hsub
    cases hsub with
    | cons₂ _ htail =>
      simp
    | cons _ htail =>
      exact List.mem_cons_of_mem w (ih (List.nodup_cons.mp hnd).2 htail)

/-- **C4.** With critical-path computation enabled: on an acyclic blocks
graph the published critical-path map satisfies
`depth(v) = 1 + max(depth(u) : u → v)` (the max taken as `0` when `v` has no
incoming blocking edge), so every node with zero incoming blocking edges has
depth exactly `1`; on a cyclic graph the published map is empty. -/
theorem criticalPath_spec (issues : List Issue)
    (hnd : (issues.map Issue.id).Nodup) (hok : BuildOk issues)
    (cfg : AnalysisConfig) (hcp : cfg.computeCriticalPath = true) :
    (Acyclic (edges issues) →
      ∀ v ∈ nodeIds issues,
        lookupQ (criticalPathPublished cfg issues) v =
            1 + ((predsList (edges issues) v).map
                  (fun u => lookupQ (criticalPathPublished cfg issues) u)).foldr
                max 0 ∧
          (predsList (edges issues) v = [] →
            lookupQ (criticalPathPublished cfg issues) v = 1)) ∧
      (HasCycle (edges issues) → criticalPathPublished cfg issues = []) := by
  have hndV : (nodeIds issues).Nodup := by
    simpa [nodeIds, issueEntries_eq issues hnd] using hnd
  have hEnd := edges_endpoints issues hnd
  constructor
  · intro hacyc v hv
    obtain ⟨l, hl⟩ := kahn_some_of_acyclic hndV hacyc
    obtain ⟨hperm, hpw, hself⟩ := kahn_spec hl
    have hndl : l.Nodup := hperm.nodup hndV
    have hpub : criticalPathPublished cfg issues =
        computeHeights (edges issues) l := by
      unfold criticalPathPublished
      rw [hcp, hl]
      rfl
    have hvl : v ∈ l := hperm.subset hv
    obtain ⟨l1, l2, hdecomp⟩ := List.append_of_mem hvl
    set M := computeHeights (edges issues) l with hM
    set acc1 := computeHeightsAux (edges issues) [] l1 with hacc1
    have hfindv : M.find? (fun q => q.1 = v) =
        some (v, 1 + maxParentHeight (edges issues) acc1 v) := by
      rw [hM, hdecomp]
      exact computeHeights_at (edges issues) l1 l2 v (hdecomp ▸ hndl)
    have hpredMem : ∀ u ∈ predsList (edges issues) v,
        ∃ p, acc1.find? (fun q => q.1 = u) = some p ∧ p.2 = lookupQ M u := by
      intro u hu
      have he : (u, v) ∈ edges issues := mem_predsList.mp hu
      have hul : u ∈ l := hperm.subset (hEnd (u, v) he).1
      have hsub : List.Sublist [u, v] l :=
        edge_sublist_of_order hpw hself hul hvl he
      have hul1 : u ∈ l1 :=
        pair_sublist_mem_left (hdecomp ▸ hndl) (hdecomp ▸ hsub)
      have hukeys : u ∈ acc1.map Prod.fst := by
        rw [hacc1, computeHeightsAux_keys]
        simpa using hul1
      obtain ⟨p, hp, _⟩ := find?_key_isSome hukeys
      refine ⟨p, hp, ?_⟩
      have hfindu : M.find? (fun q => q.1 = u) = some p := by
        rw [hM, hdecomp]
        unfold computeHeights
        rw [computeHeightsAux_append]
        exact computeHeightsAux_preserves (edges issues) (v :: l2) acc1 u p hp
      rw [lookupQ, hfindu]
    have hmain : lookupQ M v =
        1 + ((predsList (edges issues) v).map
              (fun u => lookupQ M u)).foldr max 0 := by
      rw [lookupQ, hfindv]
      simp only []
      rw [maxParentHeight_eq (edges issues) acc1 v (fun u => lookupQ M u)
        hpredMem]
    refine ⟨by rw [hpub]; exact hmain, ?_⟩
    intro hleaf
    rw [hpub, hmain, hleaf]
    simp
  · intro hcyc
    rcases hk : kahn (nodeIds issues) (edges issues) with _ | l
    · unfold criticalPathPublished
      rw [hcp, hk]
      rfl
    · exact absurd hcyc (acyclic_of_kahn_some hndV hEnd hk)

/-- Witness for C4 at the chain `A → B → C` (depths 1, 2, 3). -/
theorem criticalPath_spec_witness :
    lookupQ (criticalPathPublished {} issuesChain) "C" =
      1 + ((predsList (edges issuesChain) "C").map
            (fun u => lookupQ (criticalPathPublished {} issuesChain) u)).foldr
          max 0 :=
  (((criticalPath_spec issuesChain (by decide) (by decide) {} rfl).1
      (acyclic_of_kahn_some (by decide)
        (edges_endpoints issuesChain (by decide))
        (show kahn (nodeIds issuesChain) (edges issuesChain) =
          some ["A", "B", "C"] by decide))
      "C" (by decide))).1

/-! ## Graph construction (C2) -/

/-- Erase the non-blocking (`related` / `parent_child`) dependency entries,
keeping blocking entries and nil entries. -/
def stripNonBlocking (issues : List Issue) : List Issue :=
  issues.map (fun i =>
    { i with dependencies := i.dependencies.filter (fun d =>
        match d with
        | none => true
        | some dep => isBlockingDep dep.type) })

theorem mem_blockingTargets {i : Issue} {t : String} :
    t ∈ blockingTargets i ↔
      ∃ d ∈ i.dependencies, ∃ dep : Dependency,
        d = some dep ∧ dep.dependsOnID = t ∧ isBlockingDep dep.type = true := by
  unfold blockingTargets
  rw [List.mem_filterMap]
  constructor
  · rintro ⟨d, hd, hf⟩
    rcases d with _ | dep
    · simp at hf
    · have hf2 : (if isBlockingDep dep.type = true then some dep.dependsOnID
          else none) = some t := hf
      refine ⟨some dep, hd, dep, rfl, ?_⟩
      by_cases hb : isBlockingDep dep.type = true
      · rw [if_pos hb] at hf2
        exact ⟨Option.some_inj.mp hf2, hb⟩
      · rw [if_neg hb] at hf2
        cases hf2
  · rintro ⟨d, hd, dep, hdep, hid, hb⟩
    subst hdep
    exact ⟨some dep, hd, by simp [hb, hid]⟩

theorem mem_edgesRaw {issues : List Issue} {a b : String} :
    (a, b) ∈ edgesRaw issues ↔
      ∃ i ∈ issues, i.id = a ∧ b ∈ blockingTargets i ∧
        issues.any (fun j => j.id = b) = true := by
  unfold edgesRaw
  rw [List.mem_flatMap]
  constructor
  · rintro ⟨i, hi, hmem⟩
    rw [List.mem_map] at hmem
    obtain ⟨t, ht, hte⟩ := hmem
    rw [List.mem_filter] at ht
    have hta : t = b := congrArg Prod.snd hte
    have hia : i.id = a := congrArg Prod.fst hte
    subst hta
    exact ⟨i, hi, hia, ht.1, ht.2⟩
  · rintro ⟨i, hi, hia, hbt, hany⟩
    refine ⟨i, hi, ?_⟩
    rw [List.mem_map]
    exact ⟨b, by rw [List.mem_filter]; exact ⟨hbt, hany⟩, by rw [hia]⟩

theorem mem_id_injective {issues : List Issue}
    (hnd : (issues.map Issue.id).Nodup) {u i : Issue}
    (hu : u ∈ issues) (hi : i ∈ issues) (he : i.id = u.id) : i = u := by
  have h1 := find?_eq_some_of_mem issues hnd u hu
  have h2 := find?_eq_some_of_mem issues hnd i hi
  rw [he] at h2
  rw [h1] at h2
  exact (Option.some_inj.mp h2).symm

theorem filterMap_filter_none {α β : Type} (f : α → Option β) (p : α → Bool)
    (h : ∀ a, p a = false → f a = none) :
    ∀ l : List α, (l.filter p).filterMap f = l.filterMap f := by
  intro l
  induction l with
  | nil => rfl
  | cons a t ih =>
    by_cases hp : p a = true
    · simp [List.filter_cons, hp, List.filterMap_cons, ih]
    · rw [Bool.not_eq_true] at hp
      simp [List.filter_cons, hp, List.filterMap_cons, h a hp, ih]

theorem any_map_issue (l : List Issue) (g : Issue → Issue) (p : Issue → Bool) :
    (l.map g).any p = l.any (fun a => p (g a)) := by
  induction l with
  | nil => rfl
  | cons a t ih => simp [ih]

theorem blockingTargets_strip (i : Issue) :
    blockingTargets
        { i with dependencies := i.dependencies.filter (fun d =>
            match d with
            | none => true
            | some dep => isBlockingDep dep.type) } =
      blockingTargets i := by
  unfold blockingTargets
  simp only []
  apply filterMap_filter_none
  intro d hd
  rcases d with _ | dep
  · simp at hd
  · simp only at hd
    simp [hd]

theorem edgesRaw_strip (issues : List Issue) :
    edgesRaw (stripNonBlocking issues) = edgesRaw issues := by
  unfold edgesRaw stripNonBlocking
  rw [List.flatMap_map]
  apply List.flatMap_congr
  intro i _
  rw [blockingTargets_strip]
  congr 1
  apply List.filter_congr
  intro t _
  rw [any_map_issue]

theorem edges_strip (issues : List Issue) :
    edges (stripNonBlocking issues) = edges issues := by
  unfold edges
  rw [edgesRaw_strip]

/-- **C2.** Edge existence in the analysis graph built by `NewAnalyzer`:
`u → v` iff some dependency entry of `u` is non-nil with target `v.id` and
kind blocks/empty (`v` being present); duplicate edges collapse (the edge
list is duplicate-free); every blocking edge contributes at least one to
`OutDegree[u]` and `InDegree[v]`; erasing all `related` / `parent_child`
entries changes neither the edge set nor any degree. -/
theorem newAnalyzer_edges_spec (issues : List Issue)
    (hnd : (issues.map Issue.id).Nodup) (hok : BuildOk issues) :
    (∀ u ∈ issues, ∀ v ∈ issues,
        ((u.id, v.id) ∈ edges issues ↔
          ∃ d ∈ u.dependencies, ∃ dep : Dependency, d = some dep ∧
            dep.dependsOnID = v.id ∧
            (dep.type = DepBlocks ∨ dep.type = ""))) ∧
      (edges issues).Nodup ∧
      (∀ u ∈ issues, ∀ dep : Dependency, some dep ∈ u.dependencies →
        (dep.type = DepBlocks ∨ dep.type = "") →
        ∀ v ∈ issues, v.id = dep.dependsOnID →
          1 ≤ outDegree issues u.id ∧ 1 ≤ inDegree issues v.id) ∧
      edges (stripNonBlocking issues) = edges issues ∧
      (∀ id : String,
        outDegree (stripNonBlocking issues) id = outDegree issues id ∧
          inDegree (stripNonBlocking issues) id = inDegree issues id) := by
  have hedge : ∀ u ∈ issues, ∀ v ∈ issues,
      ((u.id, v.id) ∈ edges issues ↔
        ∃ d ∈ u.dependencies, ∃ dep : Dependency, d = some dep ∧
          dep.dependsOnID = v.id ∧
          (dep.type = DepBlocks ∨ dep.type = "")) := by
    intro u hu v hv
    rw [edges, List.mem_dedup, mem_edgesRaw]
    constructor
    · rintro ⟨i, hi, hia, hbt, _⟩
      have : i = u := mem_id_injective hnd hu hi hia
      subst this
      obtain ⟨d, hd, dep, hdep, hid, hb⟩ := mem_blockingTargets.mp hbt
      exact ⟨d, hd, dep, hdep, hid, (isBlockingDep_iff dep.type).mp hb⟩
    · rintro ⟨d, hd, dep, hdep, hid, hkind⟩
      refine ⟨u, hu, rfl, ?_, ?_⟩
      · exact mem_blockingTargets.mpr
          ⟨d, hd, dep, hdep, hid, (isBlockingDep_iff dep.type).mpr hkind⟩
      · rw [List.any_eq_true]
        exact ⟨v, hv, by simp [hid]⟩
  refine ⟨hedge, List.nodup_dedup _, ?_, edges_strip issues, ?_⟩
  · intro u hu dep hdep hkind v hv hvid
    have he : (u.id, v.id) ∈ edges issues :=
      (hedge u hu v hv).mpr ⟨some dep, hdep, dep, rfl, hvid.symm, hkind⟩
    constructor
    · have : (u.id, v.id) ∈ (edges issues).filter (fun e => e.1 = u.id) := by
        rw [List.mem_filter]
        exact ⟨he, by simp⟩
      have := List.length_pos_of_mem this
      unfold outDegree
      omega
    · have : (u.id, v.id) ∈ (edges issues).filter (fun e => e.2 = v.id) := by
        rw [List.mem_filter]
        exact ⟨he, by simp⟩
      have := List.length_pos_of_mem this
      unfold inDegree
      omega
  · intro id
    unfold outDegree inDegree
    rw [edges_strip]
    exact ⟨rfl, rfl⟩

/-- Witness for C2: in the chain, edge existence between `A` and `B` is
characterised by the blocking dependency of `A`. -/
theorem newAnalyzer_edges_spec_witness :
    (issueA.id, issueB.id) ∈ edges issuesChain ↔
      ∃ d ∈ issueA.dependencies,
        ∃ dep : Dependency, d = some dep ∧ dep.dependsOnID = issueB.id ∧
          (dep.type = DepBlocks ∨ dep.type = "") :=
  (newAnalyzer_edges_spec issuesChain (by decide) (by decide)).1
    issueA (by decide) issueB (by decide)

/-! ## PageRank timeout (C7) -/

/-- **C7.** When PageRank is enabled and its computation times out, the
published map assigns the uniform `1/|V|` to every issue id of the (unique-id,
non-empty) input set, and its key list is exactly the node id list. -/
theorem pageRank_timeout_spec (cfg : AnalysisConfig)
    (prLib : List (String × ℚ)) (issues : List Issue)
    (hpr : cfg.computePageRank = true)
    (hnd : (issues.map Issue.id).Nodup) (hne : issues ≠ []) :
    (∀ i ∈ issues,
        (pageRankPublished cfg prLib true issues).find?
            (fun p => p.1 = i.id) =
          some (i.id, 1 / ((issueEntries issues).length : ℚ))) ∧
      (pageRankPublished cfg prLib true issues).map Prod.fst =
        nodeIds issues := by
  have hpub : pageRankPublished cfg prLib true issues =
      (issueEntries issues).map
        (fun i => (i.id, 1 / ((issueEntries issues).length : ℚ))) := by
    unfold pageRankPublished
    rw [hpr]
    rfl
  constructor
  · intro i hi
    rw [hpub, List.find?_map]
    have : (issueEntries issues).find?
        (fun j => decide (j.id = i.id)) = some i := by
      rw [issueEntries_eq issues hnd]
      exact find?_eq_some_of_mem issues hnd i hi
    have hcomp : ((fun p : String × ℚ => decide (p.1 = i.id)) ∘
        (fun j : Issue => (j.id, 1 / ((issueEntries issues).length : ℚ)))) =
        fun j : Issue => decide (j.id = i.id) := rfl
    rw [hcomp, this]
    rfl
  · rw [hpub, nodeIds, List.map_map]
    rfl

/-- Witness for C7 at a two-issue set: both ids get `1/2`. -/
theorem pageRank_timeout_spec_witness :
    (pageRankPublished {} [] true [issueB, issueC]).find?
        (fun p => p.1 = issueB.id) =
      some (issueB.id, 1 / ((issueEntries [issueB, issueC]).length : ℚ)) :=
  (pageRank_timeout_spec {} [] [issueB, issueC] rfl (by decide)
    (by decide)).1 issueB (by decide)

/-! ## Cycle truncation / timeout sentinels (C8) -/

def cfgMax1 : AnalysisConfig := { maxCyclesToStore := 1 }

/-- **C8 counterexample.** When truncation occurs the code appends the
two-element sentinel `["...", "CYCLES_TRUNCATED"]`, not the claimed
single-element `["CYCLES_TRUNCATED"]`. -/
theorem cycles_truncation_claim_counterexample :
    cyclesPublished cfgMax1 true [["A", "B"], ["B", "C"]] false ≠
        [["A", "B"], ["CYCLES_TRUNCATED"]] ∧
      cyclesPublished cfgMax1 true [["A", "B"], ["B", "C"]] false =
        [["A", "B"], ["...", "CYCLES_TRUNCATED"]] := by
  constructor
  · decide
  · decide

/-- **C8 (amended).** With cycle enumeration enabled and the Tarjan pre-check
positive: more than `max_cycles_to_store` enumerated cycles (default cap 100
when the configured value is 0) publish exactly the first
`max_cycles_to_store` cycles followed by the sentinel entry
`["...", "CYCLES_TRUNCATED"]`; an enumeration timeout publishes exactly
`[["CYCLE_DETECTION_TIMEOUT"]]`. -/
theorem cyclesPublished_spec (cfg : AnalysisConfig)
    (enumerated : List (List String)) (hcc : cfg.computeCycles = true) :
    (enumerated.length > maxCyclesEff cfg →
        cyclesPublished cfg true enumerated false =
          enumerated.take (maxCyclesEff cfg) ++ [["...", "CYCLES_TRUNCATED"]]) ∧
      (cyclesPublished cfg true enumerated true =
        [["CYCLE_DETECTION_TIMEOUT"]]) ∧
      (cfg.maxCyclesToStore = 0 → maxCyclesEff cfg = 100) := by
  refine ⟨?_, ?_, ?_⟩
  · intro hlen
    unfold cyclesPublished
    rw [hcc]
    simp only [if_true]
    rw [if_pos hlen]
    simp
  · unfold cyclesPublished
    rw [hcc]
    rfl
  · intro h
    unfold maxCyclesEff
    rw [if_pos h]

/-- Witness for C8 (amended) at a concrete enumeration. -/
theorem cyclesPublished_spec_witness :
    cyclesPublished cfgMax1 true [["A", "B"], ["B", "C"]] false =
      List.take (maxCyclesEff cfgMax1) [["A", "B"], ["B", "C"]] ++
        [["...", "CYCLES_TRUNCATED"]] :=
  (cyclesPublished_spec cfgMax1 [["A", "B"], ["B", "C"]] rfl).1 (by decide)

/-! ## Self loops (C9) -/

def issueSelf : Issue := { id := "S", dependencies := [some ⟨"S", DepBlocks⟩] }

def issuesSelf : List Issue := [issueSelf]

/-- **C9 counterexample.** An issue with a blocking dependency on its own id
makes `NewAnalyzer` panic (`simple.DirectedGraph.SetEdge` rejects self
edges), so graph construction does NOT succeed: the build precondition fails
on the concrete one-issue input. -/
theorem selfLoop_claim_counterexample : ¬ BuildOk issuesSelf := by decide

/-- **C9 (amended).** For any input set containing an issue with a blocking
(or empty-kind) dependency on its own id, graph construction panics: the
self edge is handed to `SetEdge`, which rejects it, so no self loop is ever
counted in `EdgeCount` and no length-1 cycle is ever enumerated. -/
theorem selfLoop_build_panics (issues : List Issue) (i : Issue)
    (hi : i ∈ issues) (dep : Dependency) (hdep : some dep ∈ i.dependencies)
    (hkind : dep.type = DepBlocks ∨ dep.type = "")
    (hself : dep.dependsOnID = i.id) : ¬ BuildOk issues := by
  intro hok
  have hmem : (i.id, i.id) ∈ edgesRaw issues := by
    apply mem_edgesRaw.mpr
    refine ⟨i, hi, rfl, ?_, ?_⟩
    · exact mem_blockingTargets.mpr
        ⟨some dep, hdep, dep, rfl, hself, (isBlockingDep_iff dep.type).mpr hkind⟩
    · rw [List.any_eq_true]
      exact ⟨i, hi, by simp⟩
  exact hok (i.id, i.id) hmem rfl

/-- Witness for C9 (amended) at the concrete self-loop input. -/
theorem selfLoop_build_panics_witness : ¬ BuildOk [issueSelf] :=
  selfLoop_build_panics [issueSelf] issueSelf (by decide)
    ⟨"S", DepBlocks⟩ (by decide) (Or.inl rfl) rfl

/-! ## Impact scores (C5), from the impact scorer source file

`ComputeImpactScoresAt` runs the analyzer and normalizes the phase-2
PageRank/betweenness snapshots; those snapshots are gonum outputs and enter
the model as parameters (`pr`, `bw`), while `InDegree` comes from the
embedded phase 1. -/

structure ImpactEntry where
  issueID : String
  title : String
  score : ℚ
  priority : Int
  status : String
deriving DecidableEq, Repr

/-- `computeStaleness` (impact source:148-166): clamped days/30, and `0.5`
for the zero `time.Time`.  Times are in hours. -/
def computeStaleness (updatedAt : Option ℚ) (now : ℚ) : ℚ :=
  match updatedAt with
  | none => 0.5
  | some t =>
    let daysSinceUpdate := (now - t) / 24
    let s1 := daysSinceUpdate / 30
    let s2 := if s1 > 1 then 1 else s1
    if s2 < 0 then 0 else s2

/-- `computePriorityBoost` (impact source:170-183). -/
def computePriorityBoost (priority : Int) : ℚ :=
  if priority = 0 then 1
  else if priority = 1 then 0.75
  else if priority = 2 then 0.5
  else if priority = 3 then 0.25
  else 0

/-- `normalize` (impact source:186-191). -/
def normalize (v mx : ℚ) : ℚ := if mx = 0 then 0 else v / mx

/-- `normalizeInt` (impact source:194-199). -/
def normalizeInt (v mx : ℕ) : ℚ := if mx = 0 then 0 else (v : ℚ) / (mx : ℚ)

/-- `findMax` (impact source:202-210). -/
def findMax (m : List (String × ℚ)) : ℚ :=
  m.foldl (fun mx p => if p.2 > mx then p.2 else mx) 0

/-- `stats.InDegree` as an association list over all node ids. -/
def inDegreeMap (issues : List Issue) : List (String × ℕ) :=
  (nodeIds issues).map (fun id => (id, inDegree issues id))

/-- `findMaxInt` (impact source:213-221). -/
def findMaxInt (m : List (String × ℕ)) : ℕ :=
  m.foldl (fun mx p => if p.2 > mx then p.2 else mx) 0

/-- One `ImpactScore` record (impact source:77-112): weights 0.30 / 0.30 /
0.20 / 0.10 / 0.10. -/
def impactEntry (issues : List Issue) (pr bw : List (String × ℚ)) (now : ℚ)
    (i : Issue) : ImpactEntry :=
  let prNorm := normalize (lookupQ pr i.id) (findMax pr)
  let bwNorm := normalize (lookupQ bw i.id) (findMax bw)
  let blockerNorm := normalizeInt (inDegree issues i.id)
    (findMaxInt (inDegreeMap issues))
  let stalenessNorm := computeStaleness i.updatedAt now
  let priorityNorm := computePriorityBoost i.priority
  { issueID := i.id
    title := i.title
    score := prNorm * 0.30 + bwNorm * 0.30 + blockerNorm * 0.20 +
      stalenessNorm * 0.10 + priorityNorm * 0.10
    priority := i.priority
    status := i.status }

/-- The sort order of `ComputeImpactScoresAt` (impact source:116-121):
score descending, ties by issue id ascending. -/
def impactLE (a b : ImpactEntry) : Prop :=
  a.score > b.score ∨ (a.score = b.score ∧ a.issueID ≤ b.issueID)

instance : DecidableRel impactLE := by
  unfold impactLE; infer_instance

instance : IsTotal ImpactEntry impactLE := by
  constructor
  intro a b
  rcases lt_trichotomy a.score b.score with h | h | h
  · exact Or.inr (Or.inl h)
  · rcases le_total a.issueID b.issueID with h2 | h2
    · exact Or.inl (Or.inr ⟨h, h2⟩)
    · exact Or.inr (Or.inr ⟨h.symm, h2⟩)
  · exact Or.inl (Or.inl h)

instance : IsTrans ImpactEntry impactLE := by
  constructor
  intro a b c hab hbc
  rcases hab with hab | ⟨hab, hab2⟩
  · rcases hbc with hbc | ⟨hbc, _⟩
    · exact Or.inl (lt_trans hbc hab)
    · exact Or.inl (hbc ▸ hab)
  · rcases hbc with hbc | ⟨hbc, hbc2⟩
    · exact Or.inl (hab ▸ hbc)
    · exact Or.inr ⟨hab.trans hbc, le_trans hab2 hbc2⟩

/-- `ComputeImpactScoresAt` (impact source:52-124): nil on an empty issue
set; otherwise one record per non-closed `issueMap` entry, sorted.  The
unstable Go `sort.Slice` is deterministic here because the comparator is
total on distinct ids. -/
def computeImpactScoresAt (pr bw : List (String × ℚ)) (issues : List Issue)
    (now : ℚ) : List ImpactEntry :=
  if issueEntries issues = [] then []
  else
    List.insertionSort impactLE
      (((issueEntries issues).filter
          (fun i => i.status ≠ StatusClosed)).map (impactEntry issues pr bw now))

/-- The clamped-staleness closed form. -/
theorem computeStaleness_eq (updatedAt : Option ℚ) (now : ℚ) :
    computeStaleness updatedAt now =
      match updatedAt with
      | none => 0.5
      | some t => min (max (((now - t) / 24) / 30) 0) 1 := by
  rcases updatedAt with _ | t
  · rfl
  · unfold computeStaleness
    simp only []
    set s := ((now - t) / 24) / 30 with hs
    by_cases h1 : s > 1
    · rw [if_pos h1, if_neg (by norm_num)]
      have : max s 0 = s := max_eq_left (by linarith)
      rw [this, min_eq_right (le_of_lt h1)]
    · rw [if_neg h1]
      push_neg at h1
      by_cases h2 : s < 0
      · rw [if_pos h2]
        have : max s 0 = 0 := max_eq_right (le_of_lt h2)
        rw [this, min_eq_left (by norm_num)]
      · rw [if_neg h2]
        push_neg at h2
        have : max s 0 = s := max_eq_left h2
        rw [this, min_eq_left h1]

/-- An issue whose `updated_at` lies in the future of the analysis time:
refutes the unclamped staleness formula of C5. -/
def issueFuture : Issue := { id := "F", updatedAt := some 24 }

/-- **C5 counterexample.** At `now = 0`, with empty PageRank/betweenness
snapshots and the single issue `F` updated one day in the future, the claimed
score `0.10 * min(days_since_update / 30, 1)` is `-1/300`, but the code
clamps staleness below at `0` and returns score `0`. -/
theorem impactScore_claim_counterexample :
    (computeImpactScoresAt [] [] [issueFuture] 0).map ImpactEntry.score ≠
        [(0.10 : ℚ) * min (((0 - 24) / 24) / 30) 1] ∧
      (computeImpactScoresAt [] [] [issueFuture] 0).map ImpactEntry.score =
        [0] := by
  have hentry : computeImpactScoresAt [] [] [issueFuture] 0 =
      [impactEntry [issueFuture] [] [] 0 issueFuture] := rfl
  have hscore : (impactEntry [issueFuture] [] [] 0 issueFuture).score = 0 := by
    show normalize (lookupQ [] issueFuture.id) (findMax []) * 0.30 +
        normalize (lookupQ [] issueFuture.id) (findMax []) * 0.30 +
        normalizeInt (inDegree [issueFuture] issueFuture.id)
          (findMaxInt (inDegreeMap [issueFuture])) * 0.20 +
        computeStaleness issueFuture.updatedAt 0 * 0.10 +
        computePriorityBoost issueFuture.priority * 0.10 = 0
    have h1 : normalize (lookupQ [] issueFuture.id) (findMax []) = 0 := by
      unfold normalize findMax
      simp
    have h2 : normalizeInt (inDegree [issueFuture] issueFuture.id)
        (findMaxInt (inDegreeMap [issueFuture])) = 0 := by
      unfold normalizeInt
      have : findMaxInt (inDegreeMap [issueFuture]) = 0 := rfl
      rw [this]
      simp
    have h3 : computeStaleness issueFuture.updatedAt 0 = 0 := by
      rw [show issueFuture.updatedAt = some 24 from rfl, computeStaleness_eq]
      simp only []
      rw [max_eq_right (by norm_num), min_eq_left (by norm_num)]
    have h4 : computePriorityBoost issueFuture.priority = 0 := rfl
    rw [h1, h2, h3, h4]
    ring
  constructor
  · rw [hentry]
    intro h
    have h2 := List.head_eq_of_cons_eq h
    rw [hscore] at h2
    rw [min_eq_left (by norm_num : ((0:ℚ) - 24) / 24 / 30 ≤ 1)] at h2
    norm_num at h2
  · rw [hentry, List.map_cons, hscore]
    rfl

/-- **C5 (amended).** For a unique-id input set analyzed at time `now`, with
PageRank/betweenness snapshots `pr`/`bw`: the result is one entry per
non-closed issue (a permutation of the mapped filter), sorted by score
descending with ties by id ascending, and each score is
`0.30·PR/maxPR + 0.30·BW/maxBW + 0.20·InDeg/maxInDeg + 0.10·staleness +
0.10·priority_boost`, every normalization yielding `0` when its maximum is
`0`, where staleness is `min(max(days_since_update/30, 0), 1)` (`0.5` for a
missing timestamp) and priority_boost is `1, 0.75, 0.5, 0.25, 0` for
priorities `0, 1, 2, 3, ≥ 4`. -/
theorem computeImpactScoresAt_spec (pr bw : List (String × ℚ))
    (issues : List Issue) (now : ℚ)
    (hnd : (issues.map Issue.id).Nodup) :
    (computeImpactScoresAt pr bw issues now).Perm
        ((issues.filter (fun i => i.status ≠ StatusClosed)).map
          (impactEntry issues pr bw now)) ∧
      List.Sorted impactLE (computeImpactScoresAt pr bw issues now) ∧
      (∀ i ∈ issues, i.status ≠ StatusClosed →
        (impactEntry issues pr bw now i).score =
          0.30 * (if findMax pr = 0 then 0 else lookupQ pr i.id / findMax pr) +
            0.30 * (if findMax bw = 0 then 0
              else lookupQ bw i.id / findMax bw) +
            0.20 * (if findMaxInt (inDegreeMap issues) = 0 then 0
              else (inDegree issues i.id : ℚ) /
                (findMaxInt (inDegreeMap issues) : ℚ)) +
            0.10 * (match i.updatedAt with
              | none => 0.5
              | some t => min (max (((now - t) / 24) / 30) 0) 1) +
            0.10 * computePriorityBoost i.priority) ∧
      (computePriorityBoost 0 = 1 ∧ computePriorityBoost 1 = 0.75 ∧
        computePriorityBoost 2 = 0.5 ∧ computePriorityBoost 3 = 0.25 ∧
        ∀ p : Int, 4 ≤ p → computePriorityBoost p = 0) := by
  have hentries := issueEntries_eq issues hnd
  refine ⟨?_, ?_, ?_, ?_⟩
  · unfold computeImpactScoresAt
    by_cases h : issueEntries issues = []
    · rw [if_pos h]
      rw [hentries] at h
      subst h
      simp
    · rw [if_neg h, hentries]
      exact (List.perm_insertionSort impactLE _)
  · unfold computeImpactScoresAt
    by_cases h : issueEntries issues = []
    · rw [if_pos h]
      exact List.sorted_nil
    · rw [if_neg h]
      exact List.sorted_insertionSort impactLE _
  · intro i _ _
    show normalize (lookupQ pr i.id) (findMax pr) * 0.30 +
        normalize (lookupQ bw i.id) (findMax bw) * 0.30 +
        normalizeInt (inDegree issues i.id)
          (findMaxInt (inDegreeMap issues)) * 0.20 +
        computeStaleness i.updatedAt now * 0.10 +
        computePriorityBoost i.priority * 0.10 = _
    rw [computeStaleness_eq]
    unfold normalize normalizeInt
    ring
  · refine ⟨rfl, rfl, rfl, rfl, ?_⟩
    intro p hp
    unfold computePriorityBoost
    rw [if_neg (by omega), if_neg (by omega), if_neg (by omega),
      if_neg (by omega)]

/-- Witness for C5 (amended): the future-dated issue gets the clamped
staleness term. -/
theorem computeImpactScoresAt_spec_witness :
    (impactEntry [issueFuture] [] [] 0 issueFuture).score =
      0.30 * (if findMax [] = 0 then 0
          else lookupQ [] issueFuture.id / findMax []) +
        0.30 * (if findMax [] = 0 then 0
          else lookupQ [] issueFuture.id / findMax []) +
        0.20 * (if findMaxInt (inDegreeMap [issueFuture]) = 0 then 0
          else (inDegree [issueFuture] issueFuture.id : ℚ) /
            (findMaxInt (inDegreeMap [issueFuture]) : ℚ)) +
        0.10 * (match issueFuture.updatedAt with
          | none => 0.5
          | some t => min (max (((0 - t) / 24) / 30) 0) 1) +
        0.10 * computePriorityBoost issueFuture.priority :=
  (computeImpactScoresAt_spec [] [] [issueFuture] 0 (by simp)).2.2.1
    issueFuture (by simp) (by decide)

end BeadsViewer
